import Mathlib

/-!
Shallow embedding of the SampleChain single-node ledger
(`samplechain/transaction.py`, `samplechain/block.py`,
`samplechain/blockchain.py`, `samplechain/miner.py`).

Python `int` is modelled by `Int`, `str` by `String`, `dict`/`defaultdict(int)`
by an insertion-ordered association list (`BalMap`), and exceptions by
`Except`.  SHA-256 (an external library call, `hashlib.sha256(...).hexdigest()`)
is modelled by an arbitrary parameter `H : String → String`; every definition
that hashes is parametrised by `H`.  Methods that mutate the ledger object are
modelled in state-passing style: they return their Python return value (inside
`Except` when the method can raise) together with the ledger state after the
call, so frame and atomicity properties are genuine statements, not artefacts
of purity.
-/

namespace SampleChain

/-- Python `str.startswith(pre)`: character-prefix test. -/
def strStartsWith (s pre : String) : Bool :=
  pre.data.isPrefixOf s.data

/-- The all-zero 64-character sentinel `"0" * 64`. -/
def zeros64 : String := ⟨List.replicate 64 '0'⟩

/-- Python `"0" * d` for an `int` `d` (empty for `d ≤ 0`). -/
def zerosOf (d : Int) : String := ⟨List.replicate d.toNat '0'⟩

/-- `Transaction` dataclass (`transaction.py`): five frozen fields. -/
structure Transaction where
  from_address : Int
  to_address : Int
  value : Int
  fee : Int
  timestamp : Option Int
deriving DecidableEq, Repr

/-- `Transaction.__post_init__` validation (`transaction.py` lines 37-52);
the dataclass constructor either raises `ValueError` or yields the value. -/
def Transaction.init (from_address to_address value fee : Int)
    (timestamp : Option Int) : Except String Transaction :=
  if value ≤ 0 then .error "Transaction value must be positive"
  else if fee < 0 then .error "Transaction fee cannot be negative"
  else if from_address < -1 ∨ to_address < 0 then
    .error "Addresses must be non-negative integers (except -1 for mining)"
  else if from_address = to_address ∧ from_address ≠ -1 then
    .error "Cannot send transaction to the same address"
  else .ok ⟨from_address, to_address, value, fee, timestamp⟩

/-- Python `f"{x}"` for the optional timestamp: `None` prints as `"None"`. -/
def timestampRepr : Option Int → String
  | none => "None"
  | some n => toString n

/-- The string hashed by `Transaction.calculate_hash`:
`f"{from_address},{to_address},{value},{fee},{timestamp}"`. -/
def txString (t : Transaction) : String :=
  toString t.from_address ++ "," ++ toString t.to_address ++ "," ++
    toString t.value ++ "," ++ toString t.fee ++ "," ++ timestampRepr t.timestamp

/-- `Transaction.calculate_hash` with the SHA-256 oracle `H`. -/
def Transaction.calculate_hash (H : String → String) (t : Transaction) : String :=
  H (txString t)

/-- JSON rendering of the optional timestamp (`None` becomes `null`). -/
def timestampJson : Option Int → String
  | none => "null"
  | some n => toString n

/-- `json.dumps(tx.to_dict(), sort_keys=True, separators=(",", ":"))`:
keys in sorted order `fee, from_address, hash, timestamp, to_address, value`. -/
def txJson (H : String → String) (t : Transaction) : String :=
  "\x7b\"fee\":" ++ toString t.fee ++
    ",\"from_address\":" ++ toString t.from_address ++
    ",\"hash\":\"" ++ Transaction.calculate_hash H t ++
    "\",\"timestamp\":" ++ timestampJson t.timestamp ++
    ",\"to_address\":" ++ toString t.to_address ++
    ",\"value\":" ++ toString t.value ++ "\x7d"

/-- The canonical serialization of a transaction list used by
`Block.calculate_hash` (`block.py` lines 68-72). -/
def txsJson (H : String → String) (txs : List Transaction) : String :=
  "[" ++ String.intercalate "," (txs.map (txJson H)) ++ "]"

/-- `Block` dataclass (`block.py`): `nonce` is the only field the miner
mutates after construction. -/
structure Block where
  index : Int
  transactions : List Transaction
  timestamp : Int
  previous_hash : String
  nonce : Int
  difficulty : Int
deriving DecidableEq, Repr

/-- `Block.__post_init__` validation (`block.py` lines 41-55); dataclass
field defaults are `previous_hash = "0"*64`, `nonce = 0`, `difficulty = 4`. -/
def Block.init (index : Int) (transactions : List Transaction)
    (timestamp : Int) (previous_hash : String) (nonce : Int)
    (difficulty : Int) : Except String Block :=
  if index < 0 then .error "Block index must be non-negative"
  else if difficulty < 1 then .error "Difficulty must be at least 1"
  else if previous_hash.length ≠ 64 then
    .error "Previous hash must be 64 characters (SHA256)"
  else .ok ⟨index, transactions, timestamp, previous_hash, nonce, difficulty⟩

/-- The string hashed by `Block.calculate_hash` (`block.py` lines 74-80):
`f"{index}:{timestamp}:{previous_hash}:{nonce}:{transactions_str}"`. -/
def blockString (H : String → String) (b : Block) : String :=
  toString b.index ++ ":" ++ toString b.timestamp ++ ":" ++
    b.previous_hash ++ ":" ++ toString b.nonce ++ ":" ++
    txsJson H b.transactions

/-- `Block.calculate_hash` with the SHA-256 oracle `H`. -/
def Block.calculate_hash (H : String → String) (b : Block) : String :=
  H (blockString H b)

/-- `Block.is_hash_valid()` with no explicit hash argument (`block.py`
lines 84-98): the current hash must start with `difficulty` zeros. -/
def Block.is_hash_valid (H : String → String) (b : Block) : Bool :=
  strStartsWith (Block.calculate_hash H b) (zerosOf b.difficulty)

/-- `Block.create_genesis_block()` (`block.py` lines 215-225): dataclass
defaults supply `nonce = 0` and `difficulty = 4`. -/
def create_genesis_block (timestamp : Int) : Except String Block :=
  Block.init 0 [] timestamp zeros64 0 4

/-- One pass of the `while len(hashes) > 1` body in `Block.get_merkle_root`
(`block.py` lines 114-125): combine hashes pairwise, duplicating the last
element of a level of odd size. -/
def merkleLevel (H : String → String) : List String → List String
  | [] => []
  | [a] => [H (a ++ a)]
  | a :: b :: rest => H (a ++ b) :: merkleLevel H rest

/-- The `while len(hashes) > 1` loop of `Block.get_merkle_root`, returning
`hashes[0]`.  The empty list never reaches this loop in the source. -/
def merkleLoop (H : String → String) (l : List String) : String :=
  if _h : l.length ≤ 1 then l.headD ""
  else merkleLoop H (merkleLevel H l)
termination_by l.length
decreasing_by
  have key : ∀ n (m : List String), m.length ≤ n →
      (merkleLevel H m).length = (m.length + 1) / 2 := by
    intro n
    induction n with
    | zero =>
      intro m hm
      cases m with
      | nil => simp [merkleLevel]
      | cons a r => simp at hm
    | succ n ih =>
      intro m hm
      cases m with
      | nil => simp [merkleLevel]
      | cons a r =>
        cases r with
        | nil => simp [merkleLevel]
        | cons b r2 =>
          have hr : r2.length ≤ n := by simp at hm; omega
          simp [merkleLevel, ih r2 hr]
          omega
  have := key l.length l le_rfl
  omega

/-- `Block.get_merkle_root()` (`block.py` lines 100-127). -/
def get_merkle_root (H : String → String) (txs : List Transaction) : String :=
  if txs = [] then zeros64
  else merkleLoop H (txs.map (Transaction.calculate_hash H))

/-- Balance mapping: Python's insertion-ordered `defaultdict(int)`,
modelled as an association list with unique keys. -/
abbrev BalMap := List (Int × Int)

/-- First binding for a key, if any (`dict` lookup core). -/
def BalMap.find? : BalMap → Int → Option Int
  | [], _ => none
  | (a, v) :: rest, k => if a = k then some v else BalMap.find? rest k

/-- `dict.get(k, d)`: lookup with default, no mutation. -/
def BalMap.get (m : BalMap) (k : Int) (d : Int) : Int :=
  (m.find? k).getD d

/-- `defaultdict.__getitem__`: returns the stored value, inserting the
key with the default `0` (at the end, preserving insertion order) when it
is missing.  Returns the value together with the possibly-grown map. -/
def BalMap.getItem (m : BalMap) (k : Int) : Int × BalMap :=
  match m.find? k with
  | some v => (v, m)
  | none => (0, m ++ [(k, 0)])

/-- `dict.__setitem__`: overwrite in place, or append a new binding. -/
def BalMap.set : BalMap → Int → Int → BalMap
  | [], k, v => [(k, v)]
  | (a, w) :: rest, k, v =>
    if a = k then (k, v) :: rest else (a, w) :: BalMap.set rest k v

/-- `m[k] += d` on a `defaultdict(int)`: read (inserting `0` when the key
is missing) then write. -/
def BalMap.addTo (m : BalMap) (k : Int) (d : Int) : BalMap :=
  let r := m.getItem k
  r.2.set k (r.1 + d)

/-- `dict.update` from a key/value list (later entries win). -/
def BalMap.update (m : BalMap) (l : List (Int × Int)) : BalMap :=
  l.foldl (fun acc p => acc.set p.1 p.2) m

/-- Sum of all stored balances. -/
def BalMap.total (m : BalMap) : Int :=
  (m.map Prod.snd).sum

/-- Decidable equality for `Except` results, so concrete runs can be
checked by `decide`. -/
instance {ε α : Type} [DecidableEq ε] [DecidableEq α] :
    DecidableEq (Except ε α) := fun x y =>
  match x, y with
  | .ok a, .ok b =>
    if h : a = b then isTrue (by rw [h])
    else isFalse (fun c => h (Except.ok.inj c))
  | .error a, .error b =>
    if h : a = b then isTrue (by rw [h])
    else isFalse (fun c => h (Except.error.inj c))
  | .ok _, .error _ => isFalse (fun c => Except.noConfusion c)
  | .error _, .ok _ => isFalse (fun c => Except.noConfusion c)

/-- Exceptions of `blockchain.py`. -/
inductive BcError where
  | invalidTransaction
  | invalidBlock
deriving DecidableEq, Repr

/-- The `Blockchain` object state (`blockchain.py` lines 65-69). -/
structure Blockchain where
  chain : List Block
  pending : List Transaction
  balances : BalMap
  difficulty : Int
  mining_reward : Int
deriving DecidableEq, Repr

/-- `Blockchain.__init__` (`blockchain.py` lines 51-78): set balances from
`initial_balances`, create the genesis block and force its difficulty to 0. -/
def Blockchain.init (initial_balances : List (Int × Int))
    (difficulty mining_reward : Int) (ts : Int) : Except String Blockchain := do
  let g ← create_genesis_block ts
  .ok { chain := [{ g with difficulty := 0 }],
        pending := [],
        balances := BalMap.update [] initial_balances,
        difficulty := difficulty,
        mining_reward := mining_reward }

/-- `Blockchain.get_latest_block`: `self.chain[-1]`.  The chain of every
constructed ledger is non-empty; the default is unreachable junk. -/
def get_latest_block (s : Blockchain) : Block :=
  (s.chain.getLast?).getD ⟨0, [], 0, "", 0, 0⟩

/-- `Blockchain.get_balance` (`blockchain.py` lines 89-99):
`return self.balances[address]` — a `defaultdict` subscript, which inserts
the key with value `0` when it is missing. -/
def get_balance (s : Blockchain) (address : Int) : Int × Blockchain :=
  let r := s.balances.getItem address
  (r.1, { s with balances := r.2 })

/-- `Blockchain.is_transaction_valid` (`blockchain.py` lines 122-139)
applied to an explicit balance map (the method receives either
`self.balances` or a temporary map).  Uses `.get(addr, 0)`: no insertion. -/
def is_transaction_valid (balances : BalMap) (t : Transaction) : Bool :=
  decide (t.value + t.fee ≤ balances.get t.from_address 0)

/-- `Blockchain.add_transaction` (`blockchain.py` lines 101-120): validate
against committed balances, then append to the pending queue. -/
def add_transaction (s : Blockchain) (t : Transaction) :
    Except BcError Bool × Blockchain :=
  if is_transaction_valid s.balances t then
    (.ok true, { s with pending := s.pending ++ [t] })
  else (.error .invalidTransaction, s)

/-- One acceptance step of block assembly: debit `value + fee` from the
payer and credit `value` to the payee (`blockchain.py` lines 169-172; note
there is no reward-sentinel exemption in this loop). -/
def debitCredit (bal : BalMap) (t : Transaction) : BalMap :=
  (bal.addTo t.from_address (-(t.value + t.fee))).addTo t.to_address t.value

/-- The `for` loop of `Blockchain.validate_transactions_for_block`
(`blockchain.py` lines 157-174): FIFO walk with a running temporary balance
map, stopping once `block_size` transactions are accepted. -/
def validateLoop (bal : BalMap) (acc : List Transaction) (block_size : Int) :
    List Transaction → List Transaction
  | [] => acc
  | t :: rest =>
    if (acc.length : Int) ≥ block_size then acc
    else if is_transaction_valid bal t then
      validateLoop (debitCredit bal t) (acc ++ [t]) block_size rest
    else validateLoop bal acc block_size rest

/-- `Blockchain.validate_transactions_for_block` (`blockchain.py`
lines 141-174): pure selection, seeded from a copy of committed balances. -/
def validate_transactions_for_block (s : Blockchain)
    (transactions : List Transaction) (block_size : Int) : List Transaction :=
  validateLoop s.balances [] block_size transactions

/-- `Blockchain.mine_pending_transactions` (`blockchain.py` lines 176-218):
select transactions, optionally prepend the reward transaction
`Transaction(-1, miner_address, mining_reward, 0)`, and construct the
candidate block with the next index, the tip hash and the configured
difficulty.  `ts` is the wall-clock timestamp the `Block` dataclass default
would read.  The method never writes ledger state; the returned state makes
that a provable statement. -/
def mine_pending_transactions (H : String → String) (s : Blockchain)
    (miner_address : Int) (block_size : Int) (ts : Int) :
    Except String (Option Block) × Blockchain :=
  if s.pending = [] then (.ok none, s)
  else if validate_transactions_for_block s s.pending block_size = [] then
    (.ok none, s)
  else
    match (if 0 < s.mining_reward then
        (Transaction.init (-1) miner_address s.mining_reward 0 none).map
          (fun rt =>
            rt :: validate_transactions_for_block s s.pending block_size)
      else .ok (validate_transactions_for_block s s.pending block_size)) with
    | .error e => (.error e, s)
    | .ok txs =>
      match Block.init (s.chain.length : Int) txs ts
          (Block.calculate_hash H (get_latest_block s)) 0 s.difficulty with
      | .error e => (.error e, s)
      | .ok blk => (.ok (some blk), s)

/-- The replay loop of `Blockchain.is_block_valid` (`blockchain.py`
lines 279-287): non-reward transactions are affordability-checked and
debited; every transaction credits its recipient. -/
def replayOk (bal : BalMap) : List Transaction → Bool
  | [] => true
  | t :: rest =>
    if t.from_address ≠ -1 then
      if is_transaction_valid bal t then
        replayOk ((bal.addTo t.from_address (-(t.value + t.fee))).addTo
          t.to_address t.value) rest
      else false
    else replayOk (bal.addTo t.to_address t.value) rest

/-- `Blockchain.is_block_valid` (`blockchain.py` lines 255-289): index
check, previous-hash check, optional proof-of-work check, replay check. -/
def is_block_valid (H : String → String) (s : Blockchain) (b : Block)
    (skip_mining : Bool) : Bool :=
  decide (b.index = (s.chain.length : Int)) &&
  decide (b.previous_hash = Block.calculate_hash H (get_latest_block s)) &&
  (skip_mining || Block.is_hash_valid H b) &&
  replayOk s.balances b.transactions

/-- The balance update `add_block` applies for one transaction
(`blockchain.py` lines 238-243): reward transactions (`from == -1`) only
credit, all others debit `value + fee` and credit `value`. -/
def applyTx (bal : BalMap) (t : Transaction) : BalMap :=
  let bal1 := if t.from_address ≠ -1 then
    bal.addTo t.from_address (-(t.value + t.fee)) else bal
  bal1.addTo t.to_address t.value

/-- Balance updates for a whole block. -/
def applyTxs (bal : BalMap) (txs : List Transaction) : BalMap :=
  txs.foldl applyTx bal

/-- `list.remove(x)` guarded by `if x in list` (`blockchain.py`
lines 249-251): drop the first occurrence, or leave the list alone. -/
def removeFirst : List Transaction → Transaction → List Transaction
  | [], _ => []
  | x :: rest, t => if x = t then rest else x :: removeFirst rest t

/-- Dequeue every transaction of a committed block from the pending queue. -/
def removeTxs (pending : List Transaction) (txs : List Transaction) :
    List Transaction :=
  txs.foldl removeFirst pending

/-- `Blockchain.add_block` (`blockchain.py` lines 220-253): validate first
(raising `InvalidBlockError` before any mutation), then apply balance
deltas, append the block and dequeue its transactions. -/
def add_block (H : String → String) (s : Blockchain) (b : Block)
    (skip_mining : Bool) : Except BcError Bool × Blockchain :=
  if is_block_valid H s b skip_mining then
    (.ok true, { s with
      balances := applyTxs s.balances b.transactions,
      chain := s.chain ++ [b],
      pending := removeTxs s.pending b.transactions })
  else (.error .invalidBlock, s)

/-- `Miner` state (`miner.py` lines 36-50): the nonce bound and the
optional progress observer (modelled as a pure observer). -/
structure Miner where
  max_nonce : Nat
  progress_callback : Option (Nat → String → Unit)

/-- Does nonce `k` make the block's hash meet its difficulty target? -/
def nonceValid (H : String → String) (b : Block) (k : Nat) : Bool :=
  strStartsWith (Block.calculate_hash H { b with nonce := (k : Int) })
    (zerosOf b.difficulty)

/-- The `for nonce in range(...)` loop of `Miner.mine_block` (`miner.py`
lines 74-95): `fuel` is the number of nonces still to try, so the loop
visits `nonce, nonce + 1, ..., nonce + fuel - 1` in order.  Each iteration
writes the block's nonce, hashes, optionally notifies the observer, and
stops at the first hash matching the target.  Returns the Python return
value together with the block as the loop left it. -/
def mineLoop (H : String → String) (cb : Option (Nat → String → Unit)) :
    Nat → Nat → Block → Bool × Block
  | _, 0, b => (false, b)
  | nonce, fuel + 1, b =>
    let b2 : Block := { b with nonce := (nonce : Int) }
    let hsh := Block.calculate_hash H b2
    let _ := match cb with
      | some f => if nonce % 1000 = 0 then f nonce hsh else ()
      | none => ()
    if strStartsWith hsh (zerosOf b.difficulty) then (true, b2)
    else mineLoop H cb (nonce + 1) fuel b2

/-- `Miner.mine_block` (`miner.py` lines 52-95): precondition check on the
difficulty, then the sequential search over `range(max_nonce)`. -/
def mine_block (H : String → String) (m : Miner) (b : Block) :
    Except String Bool × Block :=
  if b.difficulty < 1 then
    (.error "Block difficulty must be at least 1", b)
  else
    let r := mineLoop H m.progress_callback 0 m.max_nonce b
    (.ok r.1, r.2)

/-- The `for nonce in range(start_nonce, end_nonce)` loop of
`Miner._mine_range` (`miner.py` lines 158-181), with `fuel` the number of
nonces still to try; no difficulty precondition check. -/
def mineRangeLoop (H : String → String) :
    Nat → Nat → Block → Option (Nat × String)
  | _, 0, _ => none
  | nonce, fuel + 1, b =>
    let b2 : Block := { b with nonce := (nonce : Int) }
    let hsh := Block.calculate_hash H b2
    if strStartsWith hsh (zerosOf b.difficulty) then some (nonce, hsh)
    else mineRangeLoop H (nonce + 1) fuel b2

/-- `Miner._mine_range(block, start_nonce, end_nonce)`: the worker body,
operating on a private copy of the block. -/
def mineRange (H : String → String) (b : Block)
    (start_nonce end_nonce : Nat) : Option (Nat × String) :=
  mineRangeLoop H start_nonce (end_nonce - start_nonce) b

/-- `Miner.mine_block_parallel` (`miner.py` lines 97-156) at
`num_workers = 1`, where its scheduling is deterministic: the single worker
searches `[0, max_nonce)` on a copy; on success the original block's nonce
is set to the reported nonce, on exhaustion the original block is
untouched.  Like the source, it performs no difficulty precondition check. -/
def mine_block_parallel_one (H : String → String) (m : Miner) (b : Block) :
    Bool × Block :=
  match mineRange H b 0 m.max_nonce with
  | some r => (true, { b with nonce := (r.1 : Int) })
  | none => (false, b)

/-- Replay check used to state per-block double-spend prevention: every
transaction of the list is affordable at its own position, under the
assembly-time accounting of `validate_transactions_for_block`. -/
def selectionAffordable (bal : BalMap) : List Transaction → Bool
  | [] => true
  | t :: rest =>
    is_transaction_valid bal t && selectionAffordable (debitCredit bal t) rest

/-- The temporary balances after accepting a list of transactions under
the assembly-time accounting. -/
def replayBalances (bal : BalMap) (txs : List Transaction) : BalMap :=
  txs.foldl debitCredit bal

/-- Total fees of the non-reward transactions of a list: value `add_block`
debits from payers and credits to no one. -/
def txsFees (txs : List Transaction) : Int :=
  ((txs.filter (fun t => t.from_address ≠ -1)).map Transaction.fee).sum

/-- Total value of the reward-sentinel transactions of a list: value
`add_block` credits without debiting anyone. -/
def txsMinted (txs : List Transaction) : Int :=
  ((txs.filter (fun t => t.from_address = -1)).map Transaction.value).sum

/-- Fees a committed block destroys. -/
def blockFees (b : Block) : Int := txsFees b.transactions

/-- Value a committed block mints. -/
def blockMinted (b : Block) : Int := txsMinted b.transactions

/-- Fees the whole committed chain has destroyed. -/
def destroyedFees (chain : List Block) : Int :=
  (chain.map blockFees).sum

/-- Value the whole committed chain has minted. -/
def mintedValue (chain : List Block) : Int :=
  (chain.map blockMinted).sum

/-- One successful mutating ledger call (`add_transaction` or `add_block`). -/
inductive Step (H : String → String) : Blockchain → Blockchain → Prop
  | tx (s : Blockchain) (t : Transaction) (s2 : Blockchain) (ret : Bool)
      (h : add_transaction s t = (.ok ret, s2)) : Step H s s2
  | blk (s : Blockchain) (b : Block) (skip : Bool) (s2 : Blockchain)
      (ret : Bool) (h : add_block H s b skip = (.ok ret, s2)) : Step H s s2

/-- Ledgers reachable from a state by successful calls. -/
def Reach (H : String → String) : Blockchain → Blockchain → Prop :=
  Relation.ReflTransGen (Step H)

/-- A constant stand-in for the SHA-256 oracle, used by the concrete
counterexamples and witnesses (its outputs are 64 characters long). -/
def cexH : String → String := fun _ => zeros64

/-- The genesis block as it sits in every freshly constructed ledger
(timestamp 0, difficulty forced to 0 by `Blockchain.__init__`). -/
def genesis0 : Block := ⟨0, [], 0, zeros64, 0, 0⟩

/-- The ledger `Blockchain(initial_balances=None, 4, 10)` at timestamp 0. -/
def cexEmptyLedger : Blockchain := ⟨[genesis0], [], [], 4, 10⟩

/-- The ledger `Blockchain({0: 100}, difficulty=4, mining_reward=0)` at
timestamp 0. -/
def cexLedger100 : Blockchain := ⟨[genesis0], [], [(0, 100)], 4, 0⟩

/-- A block carrying one fee-paying transaction `0 → 1, value 10, fee 5`,
valid on top of `cexLedger100` under the hash oracle `cexH`. -/
def cexFeeBlock : Block := ⟨1, [⟨0, 1, 10, 5, none⟩], 0, zeros64, 0, 4⟩

/-- The ledger `Blockchain({0: 100}, difficulty=4, mining_reward=10)` at
timestamp 0 with one admitted transaction `0 → 1, value 20`. -/
def cexPendingLedger : Blockchain :=
  ⟨[genesis0], [⟨0, 1, 20, 0, none⟩], [(0, 100)], 4, 10⟩

/-- A difficulty-0 block (as produced for genesis by `Blockchain.__init__`,
or by mutating `block.difficulty`), with a nonzero starting nonce. -/
def cexZeroDiffBlock : Block := ⟨0, [], 0, zeros64, 5, 0⟩

/-- A difficulty-1 block used by the mining witnesses. -/
def cexMineBlock : Block := ⟨1, [], 0, zeros64, 7, 1⟩

/-- All strings of a list share one length (SHA-256 digests do). -/
def sameLen (l : List String) : Prop :=
  ∀ x ∈ l, ∀ y ∈ l, x.length = y.length

/-- `sameLen` is checkable on concrete lists. -/
instance (l : List String) : Decidable (sameLen l) :=
  inferInstanceAs (Decidable (∀ x ∈ l, ∀ y ∈ l, x.length = y.length))

/-- Two distinct transactions with equal-length serializations, for the
Merkle witnesses. -/
def cexTxA : Transaction := ⟨1, 2, 5, 0, none⟩

/-- See `cexTxA`. -/
def cexTxB : Transaction := ⟨2, 1, 5, 0, none⟩

/-! ### Helper lemmas -/

/-- The all-zero sentinel has the length of a SHA-256 hex digest. -/
theorem zeros64_length : zeros64.length = 64 := by
  decide

/-- `create_genesis_block` always succeeds, with the dataclass defaults
`nonce = 0` and `difficulty = 4`. -/
theorem create_genesis_block_eq (ts : Int) :
    create_genesis_block ts = .ok ⟨0, [], ts, zeros64, 0, 4⟩ := by
  simp [create_genesis_block, Block.init, zeros64_length]

/-- `Blockchain.__init__` always succeeds; its chain is the single genesis
block with difficulty forced to 0. -/
theorem blockchain_init_eq (bal : List (Int × Int)) (d r ts : Int) :
    Blockchain.init bal d r ts =
      .ok ⟨[⟨0, [], ts, zeros64, 0, 0⟩], [], BalMap.update [] bal, d, r⟩ := by
  unfold Blockchain.init
  rw [create_genesis_block_eq]
  rfl

/-- Appending concatenates stored totals. -/
theorem BalMap.total_append (m l : BalMap) :
    BalMap.total (m ++ l) = m.total + l.total := by
  simp [BalMap.total]

/-- Overwriting a stored key shifts the total by the difference. -/
theorem BalMap.total_set_found (m : BalMap) (k v x : Int)
    (h : m.find? k = some v) :
    BalMap.total (m.set k x) = m.total + (x - v) := by
  induction m with
  | nil => simp [BalMap.find?] at h
  | cons p rest ih =>
    obtain ⟨a, w⟩ := p
    by_cases hak : a = k
    · subst hak
      simp [BalMap.find?] at h
      subst h
      simp [BalMap.set, BalMap.total]
      ring
    · simp [BalMap.find?, hak] at h
      simp [BalMap.set, hak, BalMap.total] at *
      have := ih h
      simp [BalMap.total] at this
      omega

/-- Setting a key that was just appended rewrites the appended binding. -/
theorem BalMap.set_appended (m : BalMap) (k x : Int)
    (h : m.find? k = none) :
    BalMap.set (m ++ [(k, 0)]) k x = m ++ [(k, x)] := by
  induction m with
  | nil => simp [BalMap.set]
  | cons p rest ih =>
    obtain ⟨a, w⟩ := p
    by_cases hak : a = k
    · subst hak; simp [BalMap.find?] at h
    · simp [BalMap.find?, hak] at h
      simp [BalMap.set, hak, ih h]

/-- `m[k] += d` shifts the total by exactly `d`. -/
theorem BalMap.total_addTo (m : BalMap) (k d : Int) :
    BalMap.total (m.addTo k d) = m.total + d := by
  unfold BalMap.addTo BalMap.getItem
  cases hf : m.find? k with
  | some v =>
    simpa using BalMap.total_set_found m k v (v + d) hf
  | none =>
    simp [BalMap.set_appended m k d hf, BalMap.total_append, BalMap.total]

/-- Lookups with default ignore a freshly inserted default binding. -/
theorem BalMap.get_append_default (m : BalMap) (k a : Int) :
    BalMap.get (m ++ [(k, 0)]) a 0 = m.get a 0 := by
  induction m with
  | nil =>
    by_cases hak : k = a <;> simp [BalMap.get, BalMap.find?, hak]
  | cons p rest ih =>
    obtain ⟨b, w⟩ := p
    by_cases hba : b = a
    · simp [BalMap.get, BalMap.find?, hba]
    · simp only [List.cons_append, BalMap.get, BalMap.find?, if_neg hba] at ih ⊢
      exact ih

/-! ### C3: admission invariant of `add_transaction` -/

/-- C3 (confirmed).  `add_transaction(t)` succeeds and appends `t` at the
end of the pending queue iff the committed balance of `t.from_address`
(default 0) covers `value + fee`; otherwise it raises
`InvalidTransactionError` and the queue is untouched.  Admission never
changes any balance (nor the chain), so a later admission from the same
sender is checked against the same committed balances. -/
theorem add_transaction_admission (s : Blockchain) (t : Transaction) :
    ((add_transaction s t).1 = .ok true ↔
      t.value + t.fee ≤ s.balances.get t.from_address 0)
  ∧ ((add_transaction s t).1 = .error .invalidTransaction ↔
      ¬ t.value + t.fee ≤ s.balances.get t.from_address 0)
  ∧ ((add_transaction s t).2 =
      if t.value + t.fee ≤ s.balances.get t.from_address 0 then
        { s with pending := s.pending ++ [t] } else s)
  ∧ (add_transaction s t).2.balances = s.balances
  ∧ (add_transaction s t).2.chain = s.chain := by
  by_cases h : t.value + t.fee ≤ s.balances.get t.from_address 0 <;>
    simp [add_transaction, is_transaction_valid, h]

/-! ### C9: `get_balance` and the defaultdict key-insertion effect -/

/-- C9 counterexample.  On the freshly constructed ledger
`Blockchain(None, 4, 10)`, reading the balance of the unseen address 7
returns 0 but inserts the key 7 into the balance mapping, so the ledger is
not left exactly unchanged, contradicting the claim's "including the
mapping's set of stored keys". -/
theorem get_balance_inserts_key_cex :
    Blockchain.init [] 4 10 0 = .ok cexEmptyLedger
  ∧ (get_balance cexEmptyLedger 7).1 = 0
  ∧ (get_balance cexEmptyLedger 7).2.balances = [(7, 0)]
  ∧ ¬ (get_balance cexEmptyLedger 7).2 = cexEmptyLedger := by
  refine ⟨blockchain_init_eq [] 4 10 0, ?_, ?_, ?_⟩
  all_goals decide

/-- C9 amended.  `get_balance(a)` returns the committed balance of `a`
(default 0 for unseen addresses) and leaves the chain, the pending queue,
the configuration and every balance *value* unchanged; but, because the
mapping is a `defaultdict`, a query for an address with no stored binding
inserts that address with value 0 into the mapping. -/
theorem get_balance_read (s : Blockchain) (a : Int) :
    (get_balance s a).1 = s.balances.get a 0
  ∧ (get_balance s a).2.chain = s.chain
  ∧ (get_balance s a).2.pending = s.pending
  ∧ (get_balance s a).2.difficulty = s.difficulty
  ∧ (get_balance s a).2.mining_reward = s.mining_reward
  ∧ (∀ k, (get_balance s a).2.balances.get k 0 = s.balances.get k 0)
  ∧ (get_balance s a).2.balances =
      (if (s.balances.find? a).isSome then s.balances
        else s.balances ++ [(a, 0)]) := by
  unfold get_balance BalMap.getItem
  cases hf : s.balances.find? a with
  | some v =>
    simp [hf, BalMap.get]
  | none =>
    refine ⟨by simp [hf, BalMap.get], by simp [hf], by simp [hf], by simp [hf],
      by simp [hf], fun k => ?_, by simp [hf]⟩
    simp only [hf]
    exact BalMap.get_append_default s.balances a k

/-! ### C6: genesis block shape -/

/-- C6 counterexample.  `Block.create_genesis_block()` itself returns a
block whose difficulty is the dataclass default 4, not 0 as claimed; the
difficulty is only forced to 0 afterwards by `Blockchain.__init__`. -/
theorem create_genesis_difficulty_cex :
    create_genesis_block 0 = .ok ⟨0, [], 0, zeros64, 0, 4⟩
  ∧ ¬ (create_genesis_block 0 = .ok ⟨0, [], 0, zeros64, 0, 0⟩) := by
  constructor
  · exact create_genesis_block_eq 0
  · intro h
    rw [create_genesis_block_eq 0] at h
    simp at h

/-- C6 amended.  `create_genesis_block()` returns a block with index 0, an
empty transaction list, the all-zero previous hash and the *default*
difficulty 4; every freshly constructed `Blockchain` then overwrites that
difficulty with 0, so its chain starts with exactly one zero-difficulty
genesis block at position 0. -/
theorem genesis_shape (ts : Int) (bal : List (Int × Int)) (d r : Int) :
    create_genesis_block ts = .ok ⟨0, [], ts, zeros64, 0, 4⟩
  ∧ Blockchain.init bal d r ts =
      .ok ⟨[⟨0, [], ts, zeros64, 0, 0⟩], [], BalMap.update [] bal, d, r⟩ := by
  exact ⟨create_genesis_block_eq ts, blockchain_init_eq bal d r ts⟩

/-! ### C4: block-assembly selection -/

/-- The selection loop only ever appends to its accumulator, and what it
appends is a subsequence of the remaining candidates. -/
theorem validateLoop_decomp (bs : Int) :
    ∀ (txs : List Transaction) (bal : BalMap) (acc : List Transaction),
      ∃ e, validateLoop bal acc bs txs = acc ++ e ∧ e.Sublist txs := by
  intro txs
  induction txs with
  | nil => intro bal acc; exact ⟨[], by simp [validateLoop]⟩
  | cons t rest ih =>
    intro bal acc
    by_cases hbreak : (acc.length : Int) ≥ bs
    · exact ⟨[], by simp [validateLoop, hbreak]⟩
    · by_cases hv : is_transaction_valid bal t
      · obtain ⟨e, he, hsub⟩ := ih (debitCredit bal t) (acc ++ [t])
        refine ⟨t :: e, ?_, List.Sublist.cons₂ t hsub⟩
        simp [validateLoop, hbreak, hv, he]
      · obtain ⟨e, he, hsub⟩ := ih bal acc
        refine ⟨e, ?_, List.Sublist.cons t hsub⟩
        simp [validateLoop, hbreak, hv, he]

/-- The selection never exceeds the block capacity (nor shrinks below the
accumulator it started from). -/
theorem validateLoop_length (bs : Int) :
    ∀ (txs : List Transaction) (bal : BalMap) (acc : List Transaction),
      ((validateLoop bal acc bs txs).length : Int) ≤
        max (acc.length : Int) bs := by
  intro txs
  induction txs with
  | nil => intro bal acc; simp [validateLoop]
  | cons t rest ih =>
    intro bal acc
    by_cases hbreak : (acc.length : Int) ≥ bs
    · simp [validateLoop, hbreak]
    · by_cases hv : is_transaction_valid bal t
      · have h2 := ih (debitCredit bal t) (acc ++ [t])
        simp [validateLoop, hbreak, hv]
        simp at h2
        omega
      · have h2 := ih bal acc
        simp [validateLoop, hbreak, hv]
        simp at h2
        omega

/-- Affordability of a selection extended by one accepted transaction. -/
theorem selectionAffordable_append (bal : BalMap) :
    ∀ (acc : List Transaction) (t : Transaction),
      selectionAffordable bal (acc ++ [t]) =
        (selectionAffordable bal acc &&
          is_transaction_valid (replayBalances bal acc) t) := by
  intro acc
  induction acc generalizing bal with
  | nil => intro t; simp [selectionAffordable, replayBalances]
  | cons x rest ih =>
    intro t
    simp [selectionAffordable, replayBalances] at ih ⊢
    rw [ih (debitCredit bal x) t]
    simp [Bool.and_assoc]

/-- Every transaction the selection loop accepts was affordable against
the running temporary balances at its own acceptance point. -/
theorem validateLoop_affordable (bs : Int) :
    ∀ (txs : List Transaction) (bal0 bal : BalMap) (acc : List Transaction),
      selectionAffordable bal0 acc = true →
      replayBalances bal0 acc = bal →
      selectionAffordable bal0 (validateLoop bal acc bs txs) = true := by
  intro txs
  induction txs with
  | nil => intro bal0 bal acc hacc hrep; simpa [validateLoop] using hacc
  | cons t rest ih =>
    intro bal0 bal acc hacc hrep
    by_cases hbreak : (acc.length : Int) ≥ bs
    · simpa [validateLoop, hbreak] using hacc
    · by_cases hv : is_transaction_valid bal t
      · have hacc2 : selectionAffordable bal0 (acc ++ [t]) = true := by
          rw [selectionAffordable_append, hrep]
          simp [hacc, hv]
        have hrep2 : replayBalances bal0 (acc ++ [t]) = debitCredit bal t := by
          simp [replayBalances, ← hrep]
        simpa [validateLoop, hbreak, hv] using
          ih bal0 (debitCredit bal t) (acc ++ [t]) hacc2 hrep2
      · simpa [validateLoop, hbreak, hv] using ih bal0 bal acc hacc hrep

/-- With capacity at least 1, the selection is empty exactly when no
candidate is affordable against the committed balances. -/
theorem validateLoop_nil_iff (bs : Int) (hbs : 1 ≤ bs) :
    ∀ (txs : List Transaction) (bal : BalMap),
      (validateLoop bal [] bs txs = [] ↔
        ∀ t ∈ txs, is_transaction_valid bal t = false) := by
  intro txs
  induction txs with
  | nil => intro bal; simp [validateLoop]
  | cons t rest ih =>
    intro bal
    have hbreak : ¬ (((List.length ([] : List Transaction)) : Int) ≥ bs) := by
      simp; omega
    by_cases hv : is_transaction_valid bal t
    · obtain ⟨e, he, _⟩ := validateLoop_decomp bs rest (debitCredit bal t) [t]
      constructor
      · intro hnil
        rw [validateLoop, if_neg hbreak, if_pos hv] at hnil
        simp only [List.nil_append] at hnil
        rw [he] at hnil
        simp at hnil
      · intro hall
        exact absurd hv (by simpa using hall t (by simp))
    · constructor
      · intro hnil
        rw [validateLoop, if_neg hbreak, if_neg hv] at hnil
        intro u hu
        rcases List.mem_cons.mp hu with h | h
        · subst h; simpa using hv
        · exact (ih bal).mp hnil u h
      · intro hall
        rw [validateLoop, if_neg hbreak, if_neg hv]
        exact (ih bal).mpr (fun u hu => hall u (List.mem_cons_of_mem t hu))

/-- C4 (confirmed).  `validate_transactions_for_block` walks the
candidates in FIFO order against a temporary balance map seeded from the
committed balances: the selection is an (order-preserving) subsequence of
the candidates, never exceeds `block_size`, and every accepted transaction
is affordable at its own acceptance point under the running accounting
(debit `value + fee` to the payer, credit `value` to the payee) — so two
transactions that are only individually affordable are never both
accepted.  On the spec's example (committed balances `{0: 100}`,
candidates `0→1 value 80` then `0→1 value 30`, capacity 2) exactly the
first candidate is selected; skipped candidates are not removed from the
queue (the selector reads, and returns a fresh list). -/
theorem validate_transactions_selection (s : Blockchain)
    (txs : List Transaction) (block_size : Int) :
    (validate_transactions_for_block s txs block_size).Sublist txs
  ∧ ((validate_transactions_for_block s txs block_size).length : Int) ≤
      max block_size 0
  ∧ selectionAffordable s.balances
      (validate_transactions_for_block s txs block_size) = true
  ∧ validate_transactions_for_block cexLedger100
      [⟨0, 1, 80, 0, none⟩, ⟨0, 1, 30, 0, none⟩] 2 = [⟨0, 1, 80, 0, none⟩] := by
  refine ⟨?_, ?_, ?_, by decide⟩
  · obtain ⟨e, he, hsub⟩ := validateLoop_decomp block_size txs s.balances []
    simpa [validate_transactions_for_block, he] using hsub
  · have := validateLoop_length block_size txs s.balances []
    simpa [validate_transactions_for_block, max_comm] using this
  · exact validateLoop_affordable block_size txs s.balances s.balances []
      rfl rfl

/-! ### C2: atomicity of `add_block` -/

/-- `removeFirst` is Python's guarded `list.remove`: `List.erase`. -/
theorem removeFirst_eq_erase (p : List Transaction) (t : Transaction) :
    removeFirst p t = p.erase t := by
  induction p with
  | nil => simp [removeFirst]
  | cons x rest ih =>
    by_cases h : x = t
    · simp [removeFirst, List.erase_cons, h]
    · simp [removeFirst, List.erase_cons, h, ih]

/-- `removeFirst` removes exactly one occurrence of its target (when one
exists) and nothing else. -/
theorem count_removeFirst (t : Transaction) :
    ∀ (p : List Transaction) (u : Transaction),
      (removeFirst p t).count u = p.count u - (if u = t then 1 else 0) := by
  intro p u
  by_cases hut : u = t
  · subst hut
    simp [removeFirst_eq_erase, List.count_erase_self]
  · simp [removeFirst_eq_erase, List.count_erase_of_ne hut, hut]

/-- Dequeueing a block's transactions removes each pending transaction as
many times as the block carries it (down to zero). -/
theorem count_removeTxs :
    ∀ (l p : List Transaction) (u : Transaction),
      (removeTxs p l).count u = p.count u - l.count u := by
  intro l
  induction l with
  | nil => intro p u; simp [removeTxs]
  | cons t rest ih =>
    intro p u
    have hstep : removeTxs p (t :: rest) = removeTxs (removeFirst p t) rest := rfl
    rw [hstep, ih (removeFirst p t) u, count_removeFirst t p u,
      List.count_cons]
    simp only [beq_iff_eq]
    by_cases hut : u = t
    · subst hut
      simp
      omega
    · have htu : ¬ t = u := fun h => hut h.symm
      simp only [if_neg hut, if_neg htu]
      omega

/-- Reward-sentinel transactions only credit the recipient. -/
theorem applyTx_reward (bal : BalMap) (t : Transaction)
    (h : t.from_address = -1) :
    applyTx bal t = bal.addTo t.to_address t.value := by
  simp [applyTx, h]

/-- C2 (confirmed).  `add_block` is atomic: it raises `InvalidBlockError`
exactly when the index check, the previous-hash check, the (unskipped)
proof-of-work check, or the balance-replay check fails, and then returns
the ledger exactly as it was; on success it appends the block, applies
every transaction's balance delta (reward transactions only credit, never
debit), and removes every included transaction from the pending queue
(first occurrence per inclusion). -/
theorem add_block_atomic (H : String → String) (s : Blockchain) (b : Block)
    (skip : Bool) (_hne : s.chain ≠ []) :
    ((add_block H s b skip).1 = .error .invalidBlock ↔
      (¬ b.index = (s.chain.length : Int)
       ∨ ¬ b.previous_hash = Block.calculate_hash H (get_latest_block s)
       ∨ (skip = false ∧ Block.is_hash_valid H b = false)
       ∨ replayOk s.balances b.transactions = false))
  ∧ ((add_block H s b skip).1 = .error .invalidBlock →
      (add_block H s b skip).2 = s)
  ∧ (is_block_valid H s b skip = true →
      (add_block H s b skip).1 = .ok true ∧
      (add_block H s b skip).2 = { s with
        balances := applyTxs s.balances b.transactions,
        chain := s.chain ++ [b],
        pending := removeTxs s.pending b.transactions } ∧
      (∀ t, (add_block H s b skip).2.pending.count t =
        s.pending.count t - b.transactions.count t)) := by
  have hiff : is_block_valid H s b skip = true ↔
      (b.index = (s.chain.length : Int)
       ∧ b.previous_hash = Block.calculate_hash H (get_latest_block s)
       ∧ (skip = true ∨ Block.is_hash_valid H b = true)
       ∧ replayOk s.balances b.transactions = true) := by
    simp [is_block_valid, and_assoc]
  by_cases hvalid : is_block_valid H s b skip = true
  · have hsucc1 : (add_block H s b skip).1 = .ok true := by
      simp [add_block, hvalid]
    have hsucc2 : (add_block H s b skip).2 = { s with
        balances := applyTxs s.balances b.transactions,
        chain := s.chain ++ [b],
        pending := removeTxs s.pending b.transactions } := by
      simp [add_block, hvalid]
    refine ⟨?_, ?_, fun _ => ⟨hsucc1, hsucc2, fun t => ?_⟩⟩
    · constructor
      · intro h
        rw [hsucc1] at h
        simp at h
      · intro h
        obtain ⟨h1, h2, h3, h4⟩ := hiff.mp hvalid
        rcases h with h | h | h | h
        · exact absurd h1 h
        · exact absurd h2 h
        · rcases h3 with h3 | h3
          · rw [h.1] at h3; exact absurd h3 (by simp)
          · rw [h.2] at h3; exact absurd h3 (by simp)
        · rw [h4] at h; exact absurd h (by simp)
    · intro h
      rw [hsucc1] at h
      simp at h
    · rw [hsucc2]
      exact count_removeTxs b.transactions s.pending t
  · have herr : add_block H s b skip = (.error .invalidBlock, s) := by
      simp [add_block, hvalid]
    refine ⟨?_, fun _ => by rw [herr], fun h => absurd h hvalid⟩
    rw [herr]
    constructor
    · intro _
      by_contra hcon
      push_neg at hcon
      obtain ⟨hc1, hc2, hc3, hc4⟩ := hcon
      apply hvalid
      apply hiff.mpr
      refine ⟨hc1, hc2, ?_, ?_⟩
      · cases hskip : skip
        · cases hp : Block.is_hash_valid H b
          · exact (hc3 hskip hp).elim
          · exact Or.inr rfl
        · exact Or.inl rfl
      · cases hr : replayOk s.balances b.transactions
        · exact absurd hr hc4
        · rfl
    · intro _; rfl

/-- Witness for `add_block_atomic`: a concrete successful commit on
`cexLedger100` (the 10-value, 5-fee transaction leaves `{0: 85, 1: 10}`). -/
theorem add_block_atomic_witness :
    (add_block cexH cexLedger100 cexFeeBlock true).1 = .ok true
  ∧ (add_block cexH cexLedger100 cexFeeBlock true).2.balances =
      [(0, 85), (1, 10)] := by
  have h :=
    (add_block_atomic cexH cexLedger100 cexFeeBlock true (by decide)).2.2
      (by decide)
  refine ⟨h.1, ?_⟩
  rw [h.2.1]
  decide

/-! ### C1: value conservation -/

/-- Total balance change of one applied transaction: `+value` for a
reward-sentinel transaction, `-fee` otherwise. -/
theorem applyTx_total (bal : BalMap) (t : Transaction) :
    (applyTx bal t).total =
      bal.total + (if t.from_address = -1 then t.value else -t.fee) := by
  by_cases h : t.from_address = -1
  · simp [applyTx, h, BalMap.total_addTo]
  · simp [applyTx, h, BalMap.total_addTo]
    ring

/-- Total balance change of a committed block's transaction list. -/
theorem applyTxs_total :
    ∀ (txs : List Transaction) (bal : BalMap),
      (applyTxs bal txs).total = bal.total + txsMinted txs - txsFees txs := by
  intro txs
  induction txs with
  | nil => intro bal; simp [applyTxs, txsMinted, txsFees]
  | cons t rest ih =>
    intro bal
    have hstep : applyTxs bal (t :: rest) = applyTxs (applyTx bal t) rest := rfl
    rw [hstep, ih (applyTx bal t), applyTx_total]
    by_cases h : t.from_address = -1
    · simp [txsMinted, txsFees, List.filter_cons, h]
      ring
    · simp [txsMinted, txsFees, List.filter_cons, h]
      ring

/-- Fees destroyed by an extended chain. -/
theorem destroyedFees_append (c : List Block) (b : Block) :
    destroyedFees (c ++ [b]) = destroyedFees c + blockFees b := by
  simp [destroyedFees]

/-- Value minted by an extended chain. -/
theorem mintedValue_append (c : List Block) (b : Block) :
    mintedValue (c ++ [b]) = mintedValue c + blockMinted b := by
  simp [mintedValue]

/-- Summing a constant over a list. -/
theorem sum_map_const_int {α : Type} (l : List α) (f : α → Int) (r : Int)
    (h : ∀ x ∈ l, f x = r) : (l.map f).sum = r * l.length := by
  induction l with
  | nil => simp
  | cons x rest ih =>
    simp only [List.map_cons, List.sum_cons, List.length_cons,
      h x (by simp), ih (fun y hy => h y (List.mem_cons_of_mem x hy))]
    push_cast
    ring

/-- The ledger invariant that successful calls preserve: the stored total
plus all destroyed fees equals the initial total plus all minted value;
the configured reward never changes; the chain still starts with the
genesis block. -/
theorem reach_invariant (H : String → String) (bal : List (Int × Int))
    (d r ts : Int) (s0 s : Blockchain)
    (hinit : Blockchain.init bal d r ts = .ok s0) (hreach : Reach H s0 s) :
    s.balances.total + destroyedFees s.chain =
        (BalMap.update [] bal).total + mintedValue s.chain
  ∧ s.mining_reward = r
  ∧ s.chain.head? = some ⟨0, [], ts, zeros64, 0, 0⟩ := by
  rw [blockchain_init_eq] at hinit
  have hs0 : s0 = ⟨[⟨0, [], ts, zeros64, 0, 0⟩], [], BalMap.update [] bal,
      d, r⟩ := (Except.ok.inj hinit).symm
  induction hreach with
  | refl =>
    subst hs0
    refine ⟨?_, rfl, rfl⟩
    simp [destroyedFees, mintedValue, blockFees, blockMinted, txsFees,
      txsMinted]
  | tail hpath hstep ih =>
    rename_i sb sc
    obtain ⟨ih1, ih2, ih3⟩ := ih
    cases hstep
    case tx =>
      rename_i t ret heq
      by_cases hv : is_transaction_valid sb.balances t = true
      · have hh := heq
        unfold add_transaction at hh
        rw [if_pos hv] at hh
        have h2 : sc = { sb with pending := sb.pending ++ [t] } :=
          ((Prod.mk.injEq _ _ _ _).mp hh).2.symm
        subst h2
        exact ⟨ih1, ih2, ih3⟩
      · have hh := heq
        unfold add_transaction at hh
        rw [if_neg hv] at hh
        exact Except.noConfusion ((Prod.mk.injEq _ _ _ _).mp hh).1
    case blk =>
      rename_i blk0 skip ret heq
      by_cases hv : is_block_valid H sb blk0 skip = true
      · have hh := heq
        unfold add_block at hh
        rw [if_pos hv] at hh
        have h2 : sc = { sb with
            balances := applyTxs sb.balances blk0.transactions,
            chain := sb.chain ++ [blk0],
            pending := removeTxs sb.pending blk0.transactions } :=
          ((Prod.mk.injEq _ _ _ _).mp hh).2.symm
        subst h2
        refine ⟨?_, ih2, ?_⟩
        · simp only [applyTxs_total, destroyedFees_append, mintedValue_append,
            blockFees, blockMinted]
          omega
        · have hne : sb.chain ≠ [] := by
            intro h
            rw [h] at ih3
            simp at ih3
          rw [List.head?_append_of_ne_nil _ hne]
          exact ih3
      · have hh := heq
        unfold add_block at hh
        rw [if_neg hv] at hh
        exact Except.noConfusion ((Prod.mk.injEq _ _ _ _).mp hh).1

/-- C1 counterexample.  Committing one block with a single fee-paying
transaction (`0 → 1, value 10, fee 5`) on the ledger
`Blockchain({0: 100}, mining_reward=0)` leaves balances `{0: 85, 1: 10}`
with total 95, while the claim asserts the total stays
`100 + 0 × (blocks - 1) = 100`: the fee has been destroyed, not moved. -/
theorem conservation_claim_cex :
    Blockchain.init [(0, 100)] 4 0 0 = .ok cexLedger100
  ∧ (add_block cexH cexLedger100 cexFeeBlock true).1 = .ok true
  ∧ BalMap.total (add_block cexH cexLedger100 cexFeeBlock true).2.balances = 95
  ∧ BalMap.total (BalMap.update [] [(0, 100)]) +
      cexLedger100.mining_reward *
        (((add_block cexH cexLedger100 cexFeeBlock true).2.chain.length : Int)
          - 1) = 100
  ∧ (95 : Int) ≠ 100 := by
  refine ⟨by decide, by decide, by decide, by decide, by decide⟩

/-- C1 amended.  For every ledger reachable by successful
`add_transaction` / `add_block` calls from `Blockchain(bal, d, r)`: the sum
of all stored balances equals (sum of the initial balances) + (total value
of committed reward-sentinel transactions) − (total fees of committed
non-reward transactions).  Fees are debited from payers but credited to no
one — they are destroyed, not moved.  When every committed non-genesis
block mints exactly `mining_reward` and carries no fees (as blocks built
by `mine_pending_transactions` from fee-free pending transactions do),
this specialises to initial total + `mining_reward × (number of committed
non-genesis blocks)`. -/
theorem conservation_of_value (H : String → String) (bal : List (Int × Int))
    (d r ts : Int) (s0 s : Blockchain)
    (hinit : Blockchain.init bal d r ts = .ok s0) (hreach : Reach H s0 s) :
    s.balances.total =
        (BalMap.update [] bal).total + mintedValue s.chain -
          destroyedFees s.chain
  ∧ s.mining_reward = r
  ∧ ((∀ blk ∈ s.chain.tail, blockMinted blk = r ∧ blockFees blk = 0) →
      s.balances.total =
        (BalMap.update [] bal).total + r * ((s.chain.length : Int) - 1)) := by
  obtain ⟨h1, h2, h3⟩ := reach_invariant H bal d r ts s0 s hinit hreach
  refine ⟨by omega, h2, fun hall => ?_⟩
  obtain ⟨g, rest, hchain⟩ : ∃ g rest, s.chain = g :: rest := by
    cases hc : s.chain with
    | nil => rw [hc] at h3; simp at h3
    | cons g rest => exact ⟨g, rest, rfl⟩
  have hg : g = ⟨0, [], ts, zeros64, 0, 0⟩ := by
    rw [hchain] at h3
    simpa using h3
  have htail : s.chain.tail = rest := by rw [hchain]; rfl
  have hminted : mintedValue s.chain = r * rest.length := by
    rw [hchain, mintedValue, List.map_cons, List.sum_cons, hg]
    have hzero : blockMinted (⟨0, [], ts, zeros64, 0, 0⟩ : Block) = 0 := by
      simp [blockMinted, txsMinted]
    rw [hzero, zero_add]
    exact sum_map_const_int rest blockMinted r
      (fun x hx => ((htail ▸ hall) x hx).1)
  have hfees : destroyedFees s.chain = 0 := by
    rw [hchain, destroyedFees, List.map_cons, List.sum_cons, hg]
    have hzero : blockFees (⟨0, [], ts, zeros64, 0, 0⟩ : Block) = 0 := by
      simp [blockFees, txsFees]
    rw [hzero, zero_add]
    have := sum_map_const_int rest blockFees 0
      (fun x hx => ((htail ▸ hall) x hx).2)
    simpa using this
  have hlen : ((s.chain.length : Int) - 1) = (rest.length : Int) := by
    rw [hchain]
    simp
  rw [hminted, hfees] at h1
  rw [hlen]
  omega

/-- Witness for `conservation_of_value`: the freshly initialised ledger
`Blockchain({0: 100}, 4, 0)` (zero reachability steps). -/
theorem conservation_of_value_witness :
    cexLedger100.balances.total =
        (BalMap.update [] [(0, 100)]).total + mintedValue cexLedger100.chain -
          destroyedFees cexLedger100.chain :=
  (conservation_of_value cexH [(0, 100)] 4 0 0 cexLedger100 cexLedger100
    (by decide) Relation.ReflTransGen.refl).1

/-! ### C10: block assembly is effect-free -/

/-- The reward transaction always constructs for a non-negative miner
address and a positive reward. -/
theorem reward_tx_init (miner r : Int) (hr : 0 < r) (hm : 0 ≤ miner) :
    Transaction.init (-1) miner r 0 none = .ok ⟨-1, miner, r, 0, none⟩ := by
  unfold Transaction.init
  rw [if_neg (by omega), if_neg (by omega),
    if_neg (by push_neg; exact ⟨by omega, by omega⟩),
    if_neg (by intro hc; exact hc.2 rfl)]

/-- The candidate block always constructs when the configured difficulty
is at least 1 and the tip hash has digest length. -/
theorem candidate_block_init (idx : Nat) (txs : List Transaction)
    (ts : Int) (ph : String) (d : Int) (hd : 1 ≤ d) (hph : ph.length = 64) :
    Block.init (idx : Int) txs ts ph 0 d =
      .ok ⟨(idx : Int), txs, ts, ph, 0, d⟩ := by
  unfold Block.init
  rw [if_neg (by omega), if_neg (by omega), if_neg (by simp [hph])]

/-- C10 (confirmed).  `mine_pending_transactions` never writes ledger
state: the chain, the pending queue and the balance mapping after the call
are exactly the inputs.  It returns `None` when the pending queue is empty
or the selection is empty (with capacity ≥ 1, exactly when no pending
transaction is affordable against committed balances); otherwise it
returns a fresh candidate block with index = chain length, previous hash =
hash of the chain tip, nonce 0, the configured difficulty, and the
selected transactions with a reward transaction
`Transaction(-1, miner, mining_reward, 0)` prepended when
`mining_reward > 0` (for a non-negative miner address; the `Block` and
`Transaction` constructors also require difficulty ≥ 1 and a 64-character
tip digest, else their `ValueError` propagates — still leaving the ledger
untouched). -/
theorem mine_pending_frame (H : String → String) (s : Blockchain)
    (miner_address block_size ts : Int) :
    (mine_pending_transactions H s miner_address block_size ts).2 = s
  ∧ (s.pending = [] →
      (mine_pending_transactions H s miner_address block_size ts).1 = .ok none)
  ∧ (validate_transactions_for_block s s.pending block_size = [] →
      (mine_pending_transactions H s miner_address block_size ts).1 = .ok none)
  ∧ (1 ≤ block_size →
      ((mine_pending_transactions H s miner_address block_size ts).1 =
          .ok none ↔
        ∀ t ∈ s.pending, is_transaction_valid s.balances t = false))
  ∧ (validate_transactions_for_block s s.pending block_size ≠ [] →
      0 < s.mining_reward → 0 ≤ miner_address → 1 ≤ s.difficulty →
      (Block.calculate_hash H (get_latest_block s)).length = 64 →
      (mine_pending_transactions H s miner_address block_size ts).1 =
        .ok (some ⟨(s.chain.length : Int),
          ⟨-1, miner_address, s.mining_reward, 0, none⟩ ::
            validate_transactions_for_block s s.pending block_size,
          ts, Block.calculate_hash H (get_latest_block s), 0, s.difficulty⟩))
  ∧ (validate_transactions_for_block s s.pending block_size ≠ [] →
      s.mining_reward ≤ 0 → 1 ≤ s.difficulty →
      (Block.calculate_hash H (get_latest_block s)).length = 64 →
      (mine_pending_transactions H s miner_address block_size ts).1 =
        .ok (some ⟨(s.chain.length : Int),
          validate_transactions_for_block s s.pending block_size,
          ts, Block.calculate_hash H (get_latest_block s), 0, s.difficulty⟩)) := by
  refine ⟨?_, ?_, ?_, ?_, ?_, ?_⟩
  · unfold mine_pending_transactions
    split
    · rfl
    · split
      · rfl
      · split
        · rfl
        · split
          · rfl
          · rfl
  · intro hp
    unfold mine_pending_transactions
    rw [if_pos hp]
  · intro hv
    by_cases hp : s.pending = []
    · unfold mine_pending_transactions
      rw [if_pos hp]
    · unfold mine_pending_transactions
      rw [if_neg hp, if_pos hv]
  · intro hbs
    constructor
    · intro hnone
      by_cases hp : s.pending = []
      · intro t ht
        rw [hp] at ht
        simp at ht
      · by_cases hv :
          validate_transactions_for_block s s.pending block_size = []
        · exact (validateLoop_nil_iff block_size hbs s.pending
            s.balances).mp hv
        · exfalso
          unfold mine_pending_transactions at hnone
          rw [if_neg hp, if_neg hv] at hnone
          split at hnone
          · simp at hnone
          · split at hnone
            · simp at hnone
            · simp at hnone
    · intro hall
      have hv : validate_transactions_for_block s s.pending block_size = [] :=
        (validateLoop_nil_iff block_size hbs s.pending s.balances).mpr hall
      by_cases hp : s.pending = []
      · unfold mine_pending_transactions
        rw [if_pos hp]
      · unfold mine_pending_transactions
        rw [if_neg hp, if_pos hv]
  · intro hv hr hm hd hph
    have hp : s.pending ≠ [] := by
      intro h
      apply hv
      rw [h]
      rfl
    unfold mine_pending_transactions
    rw [if_neg hp, if_neg hv, if_pos hr,
      reward_tx_init miner_address s.mining_reward hr hm]
    show (match Block.init (s.chain.length : Int)
        (⟨-1, miner_address, s.mining_reward, 0, none⟩ ::
          validate_transactions_for_block s s.pending block_size) ts
        (Block.calculate_hash H (get_latest_block s)) 0 s.difficulty with
      | Except.error e => (Except.error e, s)
      | Except.ok blk => (Except.ok (some blk), s)).1 = _
    rw [candidate_block_init s.chain.length
      (⟨-1, miner_address, s.mining_reward, 0, none⟩ ::
        validate_transactions_for_block s s.pending block_size)
      ts (Block.calculate_hash H (get_latest_block s)) s.difficulty hd hph]
  · intro hv hrle hd hph
    have hp : s.pending ≠ [] := by
      intro h
      apply hv
      rw [h]
      rfl
    unfold mine_pending_transactions
    rw [if_neg hp, if_neg hv, if_neg (by omega : ¬ 0 < s.mining_reward)]
    show (match Block.init (s.chain.length : Int)
        (validate_transactions_for_block s s.pending block_size) ts
        (Block.calculate_hash H (get_latest_block s)) 0 s.difficulty with
      | Except.error e => (Except.error e, s)
      | Except.ok blk => (Except.ok (some blk), s)).1 = _
    rw [candidate_block_init s.chain.length
      (validate_transactions_for_block s s.pending block_size)
      ts (Block.calculate_hash H (get_latest_block s)) s.difficulty hd hph]

/-- Witness for `mine_pending_frame`: on the ledger with balances
`{0: 100}`, reward 10, and one pending transaction `0 → 1, value 20`, the
assembled candidate carries the reward transaction then the pending one,
and the ledger is untouched. -/
theorem mine_pending_frame_witness :
    (mine_pending_transactions cexH cexPendingLedger 3 10 0).1 =
      .ok (some ⟨1, [⟨-1, 3, 10, 0, none⟩, ⟨0, 1, 20, 0, none⟩], 0,
        zeros64, 0, 4⟩)
  ∧ (mine_pending_transactions cexH cexPendingLedger 3 10 0).2 =
      cexPendingLedger := by
  constructor
  · have h := (mine_pending_frame cexH cexPendingLedger 3 10 0).2.2.2.2.1
      (by decide) (by decide) (by decide) (by decide) (by decide)
    exact h
  · exact (mine_pending_frame cexH cexPendingLedger 3 10 0).1

/-! ### C5: sequential mining finds the least nonce -/

/-- If `k` is the first satisfying nonce at or after the loop's current
position (and in range), the loop stops there with the block's nonce set
to `k`. -/
theorem mineLoop_found (H : String → String)
    (cb : Option (Nat → String → Unit)) :
    ∀ (fuel nonce : Nat) (b : Block) (k : Nat),
      nonce ≤ k → k < nonce + fuel → nonceValid H b k = true →
      (∀ j, nonce ≤ j → j < k → nonceValid H b j = false) →
      mineLoop H cb nonce fuel b = (true, { b with nonce := (k : Int) }) := by
  intro fuel
  induction fuel with
  | zero =>
    intro nonce b k h1 h2 h3 h4
    omega
  | succ fuel ih =>
    intro nonce b k h1 h2 h3 h4
    by_cases hk : nonce = k
    · subst hk
      show mineLoop H cb nonce (fuel + 1) b = _
      unfold mineLoop
      dsimp only
      rw [show strStartsWith
          (Block.calculate_hash H { b with nonce := (nonce : Int) })
          (zerosOf b.difficulty) = true from h3]
      rfl
    · have hnv : nonceValid H b nonce = false := h4 nonce le_rfl (by omega)
      show mineLoop H cb nonce (fuel + 1) b = _
      unfold mineLoop
      dsimp only
      rw [show strStartsWith
          (Block.calculate_hash H { b with nonce := (nonce : Int) })
          (zerosOf b.difficulty) = false from hnv]
      simp only [Bool.false_eq_true, if_false]
      exact ih (nonce + 1) { b with nonce := (nonce : Int) } k (by omega)
        (by omega) h3 (fun j hj1 hj2 => h4 j (by omega) hj2)

/-- If no nonce in the loop's range satisfies the target, the loop reports
failure, leaving the block's nonce at the last value it tried (or at its
input value when the range is empty). -/
theorem mineLoop_exhausted (H : String → String)
    (cb : Option (Nat → String → Unit)) :
    ∀ (fuel nonce : Nat) (b : Block),
      (∀ j, nonce ≤ j → j < nonce + fuel → nonceValid H b j = false) →
      mineLoop H cb nonce fuel b =
        (false, if 0 < fuel then
          { b with nonce := ((nonce + fuel - 1 : Nat) : Int) } else b) := by
  intro fuel
  induction fuel with
  | zero =>
    intro nonce b _
    simp [mineLoop]
  | succ fuel ih =>
    intro nonce b h
    have hnv : nonceValid H b nonce = false := h nonce le_rfl (by omega)
    show mineLoop H cb nonce (fuel + 1) b = _
    unfold mineLoop
    dsimp only
    rw [show strStartsWith
        (Block.calculate_hash H { b with nonce := (nonce : Int) })
        (zerosOf b.difficulty) = false from hnv]
    simp only [Bool.false_eq_true, if_false]
    rw [ih (nonce + 1) { b with nonce := (nonce : Int) }
      (fun j hj1 hj2 => h j (by omega) (by omega))]
    rcases Nat.eq_zero_or_pos fuel with hf | hf
    · subst hf
      simp
    · rw [if_pos hf, if_pos (by omega : 0 < fuel + 1)]
      have harith : nonce + 1 + fuel - 1 = nonce + (fuel + 1) - 1 := by omega
      rw [harith]

/-- The search outcome ignores the progress observer. -/
theorem mineLoop_cb_irrelevant (H : String → String) :
    ∀ (fuel nonce : Nat) (b : Block)
      (cb cb2 : Option (Nat → String → Unit)),
      mineLoop H cb nonce fuel b = mineLoop H cb2 nonce fuel b := by
  intro fuel
  induction fuel with
  | zero => intro nonce b cb cb2; rfl
  | succ fuel ih =>
    intro nonce b cb cb2
    show mineLoop H cb nonce (fuel + 1) b = mineLoop H cb2 nonce (fuel + 1) b
    unfold mineLoop
    dsimp only
    cases hs : strStartsWith
        (Block.calculate_hash H { b with nonce := (nonce : Int) })
        (zerosOf b.difficulty)
    · simp only [Bool.false_eq_true, if_false]
      exact ih (nonce + 1) { b with nonce := (nonce : Int) } cb cb2
    · rfl

/-- C5 (confirmed).  For a block of difficulty ≥ 1, `mine_block` scans the
nonces `0, 1, 2, ...` in order: if some nonce below `max_nonce` makes the
block's hash start with `difficulty` zeros, it returns `True` with the
block's nonce set to the *smallest* such nonce; if none does, it returns
`False` without raising, leaving the nonce at the last tried value
`max_nonce - 1` (or untouched when `max_nonce = 0` and nothing was tried);
and the progress callback has no effect on the search outcome. -/
theorem mine_block_finds_least (H : String → String) (m : Miner) (b : Block)
    (hd : 1 ≤ b.difficulty) :
    (∀ k : Nat, k < m.max_nonce → nonceValid H b k = true →
        (∀ j, j < k → nonceValid H b j = false) →
        mine_block H m b = (.ok true, { b with nonce := (k : Int) }))
  ∧ ((∀ k, k < m.max_nonce → nonceValid H b k = false) → 1 ≤ m.max_nonce →
      mine_block H m b =
        (.ok false, { b with nonce := ((m.max_nonce - 1 : Nat) : Int) }))
  ∧ ((∀ k, k < m.max_nonce → nonceValid H b k = false) → m.max_nonce = 0 →
      mine_block H m b = (.ok false, b))
  ∧ (∀ cb cb2, mine_block H { m with progress_callback := cb } b =
        mine_block H { m with progress_callback := cb2 } b) := by
  have hnd : ¬ b.difficulty < 1 := by omega
  refine ⟨?_, ?_, ?_, ?_⟩
  · intro k hk hvk hleast
    unfold mine_block
    rw [if_neg hnd, mineLoop_found H m.progress_callback m.max_nonce 0 b k
      (Nat.zero_le k) (by omega) hvk (fun j _ hj2 => hleast j hj2)]
  · intro hall hpos
    unfold mine_block
    rw [if_neg hnd, mineLoop_exhausted H m.progress_callback m.max_nonce 0 b
      (fun j _ hj2 => hall j (by omega))]
    rw [if_pos (by omega : 0 < m.max_nonce)]
    have harith : 0 + m.max_nonce - 1 = m.max_nonce - 1 := by omega
    rw [harith]
  · intro hall hzero
    unfold mine_block
    rw [if_neg hnd, mineLoop_exhausted H m.progress_callback m.max_nonce 0 b
      (fun j _ hj2 => hall j (by omega))]
    rw [hzero]
    rfl
  · intro cb cb2
    unfold mine_block
    rw [if_neg hnd, if_neg hnd]
    rw [show ({ m with progress_callback := cb } : Miner).max_nonce =
      m.max_nonce from rfl]
    rw [show ({ m with progress_callback := cb2 } : Miner).max_nonce =
      m.max_nonce from rfl]
    rw [mineLoop_cb_irrelevant H m.max_nonce 0 b cb cb2]

/-- Witness for `mine_block_finds_least`: under the constant hash oracle
every nonce satisfies any target, so the search stops at nonce 0. -/
theorem mine_block_finds_least_witness :
    mine_block cexH ⟨100, none⟩ cexMineBlock =
      (.ok true, ⟨1, [], 0, zeros64, 0, 1⟩) :=
  (mine_block_finds_least cexH ⟨100, none⟩ cexMineBlock (by decide)).1 0
    (by decide) (by decide) (fun j hj => absurd hj (Nat.not_lt_zero j))

/-! ### C8: the difficulty < 1 precondition -/

/-- For non-positive difficulty the zero-prefix target is empty. -/
theorem zerosOf_nonpos (d : Int) (hd : d < 1) : zerosOf d = ⟨[]⟩ := by
  unfold zerosOf
  rw [Int.toNat_of_nonpos (by omega)]
  rfl

/-- Every string starts with the empty target. -/
theorem strStartsWith_nil (s : String) : strStartsWith s ⟨[]⟩ = true := by
  unfold strStartsWith
  cases hd : s.data with
  | nil => rfl
  | cons c rest => rfl

/-- C8 counterexample.  On a difficulty-0 block (nonce 5), the parallel
search does not report a precondition violation: it searches, trivially
succeeds at the first nonce of its range, and overwrites the block's nonce
with 0 — while the sequential search raises `MiningError` as claimed. -/
theorem parallel_no_guard_cex :
    mine_block cexH ⟨10, none⟩ cexZeroDiffBlock =
      (.error "Block difficulty must be at least 1", cexZeroDiffBlock)
  ∧ mine_block_parallel_one cexH ⟨10, none⟩ cexZeroDiffBlock =
      (true, ⟨0, [], 0, zeros64, 0, 0⟩)
  ∧ cexZeroDiffBlock.nonce = 5 := by
  refine ⟨by decide, by decide, by decide⟩

/-- C8 amended.  `mine_block` rejects difficulty < 1 immediately
(`MiningError`, block untouched, no nonce tried), but
`mine_block_parallel` performs no such check: with difficulty < 1 (and a
non-empty nonce range) its worker accepts the very first nonce of its
range, so the parallel search returns success with the block's nonce set
to 0 (single-worker instance, whose scheduling is deterministic). -/
theorem mining_difficulty_precondition :
    (∀ (H : String → String) (m : Miner) (b : Block), b.difficulty < 1 →
      mine_block H m b = (.error "Block difficulty must be at least 1", b))
  ∧ (∀ (H : String → String) (m : Miner) (b : Block), b.difficulty < 1 →
      1 ≤ m.max_nonce →
      mine_block_parallel_one H m b = (true, { b with nonce := 0 })) := by
  constructor
  · intro H m b hd
    unfold mine_block
    rw [if_pos hd]
  · intro H m b hd hpos
    unfold mine_block_parallel_one mineRange
    obtain ⟨fuel, hfuel⟩ : ∃ fuel, m.max_nonce - 0 = fuel + 1 :=
      ⟨m.max_nonce - 1, by omega⟩
    rw [hfuel]
    unfold mineRangeLoop
    dsimp only
    rw [zerosOf_nonpos b.difficulty hd, strStartsWith_nil]
    rfl

/-- Witness for `mining_difficulty_precondition` on a concrete
difficulty-0 block. -/
theorem mining_difficulty_precondition_witness :
    mine_block cexH ⟨10, none⟩ cexZeroDiffBlock =
      (.error "Block difficulty must be at least 1", cexZeroDiffBlock)
  ∧ mine_block_parallel_one cexH ⟨10, none⟩ cexZeroDiffBlock =
      (true, { cexZeroDiffBlock with nonce := 0 }) :=
  ⟨mining_difficulty_precondition.1 cexH ⟨10, none⟩ cexZeroDiffBlock
    (by decide),
   mining_difficulty_precondition.2 cexH ⟨10, none⟩ cexZeroDiffBlock
    (by decide) (by decide)⟩

/-! ### C7: Merkle root computation -/

/-- One reduction level has `⌈n / 2⌉` outputs. -/
theorem merkleLevel_length (H : String → String) :
    ∀ l : List String, (merkleLevel H l).length = (l.length + 1) / 2
  | [] => by simp [merkleLevel]
  | [a] => by simp [merkleLevel]
  | a :: b :: rest => by
    rw [show merkleLevel H (a :: b :: rest) =
      H (a ++ b) :: merkleLevel H rest from rfl]
    simp only [List.length_cons, merkleLevel_length H rest]
    omega

/-- Concatenation of strings is injective once the first lengths agree. -/
theorem string_append_inj (a a2 b b2 : String) (hlen : a.length = a2.length)
    (h : a ++ b = a2 ++ b2) : a = a2 ∧ b = b2 := by
  have hdata : a.data ++ b.data = a2.data ++ b2.data := by
    rw [← String.data_append, ← String.data_append, h]
  obtain ⟨h1, h2⟩ := List.append_inj hdata hlen
  constructor
  · cases a; cases a2; exact congrArg String.mk h1
  · cases b; cases b2; exact congrArg String.mk h2

/-- Every output of a reduction level is the combining hash of two
members of the level below (the two coincide for a duplicated odd tail). -/
theorem merkleLevel_mem (H : String → String) :
    ∀ (l : List String) (x : String), x ∈ merkleLevel H l →
      ∃ u ∈ l, ∃ v ∈ l, x = H (u ++ v)
  | [], x => by simp [merkleLevel]
  | [a], x => by
    intro hx
    simp [merkleLevel] at hx
    exact ⟨a, by simp, a, by simp, hx⟩
  | a :: b :: rest, x => by
    intro hx
    simp only [merkleLevel, List.mem_cons] at hx
    rcases hx with hx | hx
    · exact ⟨a, by simp, b, by simp, hx⟩
    · obtain ⟨u, hu, v, hv, hx⟩ := merkleLevel_mem H rest x hx
      exact ⟨u, by simp [hu], v, by simp [hv], hx⟩

/-- A reduction level is injective on equal-length lists of equal-length
digests, provided the combining hash is injective. -/
theorem merkleLevel_inj (H : String → String)
    (hInj : Function.Injective H) (L : Nat) :
    ∀ l1 l2 : List String, l1.length = l2.length →
      (∀ x ∈ l1, x.length = L) → (∀ x ∈ l2, x.length = L) →
      merkleLevel H l1 = merkleLevel H l2 → l1 = l2
  | [], [], _, _, _, _ => rfl
  | [], a2 :: r2, hlen, _, _, _ => by simp at hlen
  | a :: r, [], hlen, _, _, _ => by simp at hlen
  | [a], [a2], _, hL1, hL2, heq => by
    simp only [merkleLevel, List.cons.injEq] at heq
    have h2 := hInj heq.1
    have := (string_append_inj a a2 a a2
      (by rw [hL1 a (by simp), hL2 a2 (by simp)]) h2).1
    rw [this]
  | [a], a2 :: b2 :: r2, hlen, _, _, _ => by
    simp at hlen
  | a :: b :: r, [a2], hlen, _, _, _ => by
    simp at hlen
  | a :: b :: r, a2 :: b2 :: r2, hlen, hL1, hL2, heq => by
    simp only [merkleLevel, List.cons.injEq] at heq
    have hab := hInj heq.1
    have h1 := string_append_inj a a2 b b2
      (by rw [hL1 a (by simp), hL2 a2 (by simp)]) hab
    have hr : r = r2 := by
      apply merkleLevel_inj H hInj L r r2
      · simp at hlen; omega
      · exact fun x hx => hL1 x (by simp [hx])
      · exact fun x hx => hL2 x (by simp [hx])
      · exact heq.2
    rw [h1.1, h1.2, hr]

/-- The reduction loop is injective on non-empty equal-length lists of
same-length digests, when the combining hash is injective and
length-uniform. -/
theorem merkleLoop_inj (H : String → String)
    (hInj : Function.Injective H)
    (hLen : ∀ s1 s2 : String, s1.length = s2.length →
      (H s1).length = (H s2).length) :
    ∀ (n : Nat) (l1 l2 : List String), l1.length = n →
      l1.length = l2.length → 0 < l1.length → sameLen (l1 ++ l2) →
      merkleLoop H l1 = merkleLoop H l2 → l1 = l2 := by
  intro n
  induction n using Nat.strong_induction_on with
  | _ n ih =>
    intro l1 l2 hn hlen hpos hsame hloop
    by_cases hsmall : l1.length ≤ 1
    · obtain ⟨x, hx⟩ : ∃ x, l1 = [x] := by
        cases l1 with
        | nil => simp at hpos
        | cons x r =>
          cases r with
          | nil => exact ⟨x, rfl⟩
          | cons y r2 => simp at hsmall
      obtain ⟨y, hy⟩ : ∃ y, l2 = [y] := by
        rw [hx] at hlen
        cases l2 with
        | nil => simp at hlen
        | cons y r =>
          cases r with
          | nil => exact ⟨y, rfl⟩
          | cons z r2 => simp at hlen
      rw [hx, hy] at hloop ⊢
      have e1 : merkleLoop H [x] = x := by
        rw [merkleLoop]
        rw [dif_pos (by simp : ([x] : List String).length ≤ 1)]
        rfl
      have e2 : merkleLoop H [y] = y := by
        rw [merkleLoop]
        rw [dif_pos (by simp : ([y] : List String).length ≤ 1)]
        rfl
      rw [e1, e2] at hloop
      rw [hloop]
    · have hsmall2 : ¬ l2.length ≤ 1 := by omega
      rw [show merkleLoop H l1 = merkleLoop H (merkleLevel H l1) from by
        rw [merkleLoop]; rw [dif_neg hsmall]] at hloop
      rw [show merkleLoop H l2 = merkleLoop H (merkleLevel H l2) from by
        rw [merkleLoop]; rw [dif_neg hsmall2]] at hloop
      obtain ⟨x, r1, hx⟩ : ∃ x r1, l1 = x :: r1 := by
        cases l1 with
        | nil => simp at hpos
        | cons x r => exact ⟨x, r, rfl⟩
      have hL1 : ∀ y ∈ l1, y.length = x.length :=
        fun y hy => hsame y (by simp [hy]) x (by simp [hx])
      have hL2 : ∀ y ∈ l2, y.length = x.length :=
        fun y hy => hsame y (by simp [hy]) x (by simp [hx])
      have hlevlen : (merkleLevel H l1).length = (merkleLevel H l2).length := by
        rw [merkleLevel_length, merkleLevel_length, hlen]
      have hlevpos : 0 < (merkleLevel H l1).length := by
        rw [merkleLevel_length]
        omega
      have hlevsame : sameLen (merkleLevel H l1 ++ merkleLevel H l2) := by
        intro p hp q hq
        have hshape : ∀ z ∈ merkleLevel H l1 ++ merkleLevel H l2,
            ∃ u v, u.length = x.length ∧ v.length = x.length ∧
              z = H (u ++ v) := by
          intro z hz
          rcases List.mem_append.mp hz with hz | hz
          · obtain ⟨u, hu, v, hv, hzeq⟩ := merkleLevel_mem H l1 z hz
            exact ⟨u, v, hL1 u hu, hL1 v hv, hzeq⟩
          · obtain ⟨u, hu, v, hv, hzeq⟩ := merkleLevel_mem H l2 z hz
            exact ⟨u, v, hL2 u hu, hL2 v hv, hzeq⟩
        obtain ⟨u1, v1, hu1, hv1, hp1⟩ := hshape p hp
        obtain ⟨u2, v2, hu2, hv2, hq1⟩ := hshape q hq
        rw [hp1, hq1]
        apply hLen
        have e1 : (u1 ++ v1).length = u1.length + v1.length :=
          String.length_append u1 v1
        have e2 : (u2 ++ v2).length = u2.length + v2.length :=
          String.length_append u2 v2
        omega
      have hlev := ih (merkleLevel H l1).length
        (by rw [merkleLevel_length]; omega)
        (merkleLevel H l1) (merkleLevel H l2) rfl hlevlen hlevpos
        hlevsame hloop
      exact merkleLevel_inj H hInj x.length l1 l2 hlen hL1 hL2 hlev

/-- C7 (confirmed, under the standard idealisation of SHA-256 as an
injective, length-uniform function `H`).  `get_merkle_root` is
deterministic; the empty transaction list yields the all-zero sentinel; a
single transaction yields its own hash; a three-transaction list shows the
iterative pairwise reduction with the odd level's last element duplicated;
and swapping two transactions with distinct hashes (in any positions of
any list whose leaf hashes share one length, as genuine SHA-256 digests
do) changes the root. -/
theorem merkle_root_properties (H : String → String)
    (hInj : Function.Injective H)
    (hLen : ∀ s1 s2 : String, s1.length = s2.length →
      (H s1).length = (H s2).length) :
    (∀ t1 t2 : List Transaction, t1 = t2 →
      get_merkle_root H t1 = get_merkle_root H t2)
  ∧ get_merkle_root H [] = zeros64
  ∧ (∀ t, get_merkle_root H [t] = Transaction.calculate_hash H t)
  ∧ (∀ t1 t2 t3, get_merkle_root H [t1, t2, t3] =
      H (H (Transaction.calculate_hash H t1 ++ Transaction.calculate_hash H t2)
        ++ H (Transaction.calculate_hash H t3 ++
          Transaction.calculate_hash H t3)))
  ∧ (∀ (p m s : List Transaction) (a b : Transaction),
      a ≠ b →
      Transaction.calculate_hash H a ≠ Transaction.calculate_hash H b →
      sameLen ((p ++ a :: (m ++ b :: s)).map (Transaction.calculate_hash H)) →
      get_merkle_root H (p ++ a :: (m ++ b :: s)) ≠
        get_merkle_root H (p ++ b :: (m ++ a :: s))) := by
  refine ⟨fun t1 t2 h => by rw [h], by simp [get_merkle_root], ?_, ?_, ?_⟩
  · intro t
    simp only [get_merkle_root, if_neg (by simp : ¬ ([t] = []))]
    rw [merkleLoop]
    simp
  · intro t1 t2 t3
    simp only [get_merkle_root,
      if_neg (by simp : ¬ ([t1, t2, t3] = []))]
    rw [merkleLoop]
    rw [dif_neg (by simp)]
    rw [show merkleLevel H
        (List.map (Transaction.calculate_hash H) [t1, t2, t3]) =
      [H (Transaction.calculate_hash H t1 ++ Transaction.calculate_hash H t2),
       H (Transaction.calculate_hash H t3 ++ Transaction.calculate_hash H t3)]
      from rfl]
    rw [merkleLoop]
    rw [dif_neg (by simp)]
    rw [show merkleLevel H
        [H (Transaction.calculate_hash H t1 ++ Transaction.calculate_hash H t2),
         H (Transaction.calculate_hash H t3 ++
            Transaction.calculate_hash H t3)] =
      [H (H (Transaction.calculate_hash H t1 ++
          Transaction.calculate_hash H t2) ++
        H (Transaction.calculate_hash H t3 ++
          Transaction.calculate_hash H t3))] from rfl]
    rw [merkleLoop]
    simp
  · intro p m s a b hab hhash hsame
    set l1 : List Transaction := p ++ a :: (m ++ b :: s) with hl1
    set l2 : List Transaction := p ++ b :: (m ++ a :: s) with hl2
    have hmemiff : ∀ x, x ∈ l1.map (Transaction.calculate_hash H) ↔
        x ∈ l2.map (Transaction.calculate_hash H) := by
      intro x
      simp only [hl1, hl2, List.map_append, List.map_cons, List.mem_append,
        List.mem_cons]
      tauto
    have hsame2 : sameLen (l1.map (Transaction.calculate_hash H) ++
        l2.map (Transaction.calculate_hash H)) := by
      intro x hx y hy
      apply hsame
      · rcases List.mem_append.mp hx with h | h
        · exact h
        · exact (hmemiff x).mpr h
      · rcases List.mem_append.mp hy with h | h
        · exact h
        · exact (hmemiff y).mpr h
    intro hroot
    have hne1 : l1 ≠ [] := by simp [hl1]
    have hne2 : l2 ≠ [] := by simp [hl2]
    rw [get_merkle_root, if_neg hne1, get_merkle_root, if_neg hne2] at hroot
    have hlen12 : (l1.map (Transaction.calculate_hash H)).length =
        (l2.map (Transaction.calculate_hash H)).length := by
      simp [hl1, hl2]
    have hpos : 0 < (l1.map (Transaction.calculate_hash H)).length := by
      simp [hl1]
    have hmapeq := merkleLoop_inj H hInj hLen
      (l1.map (Transaction.calculate_hash H)).length
      (l1.map (Transaction.calculate_hash H))
      (l2.map (Transaction.calculate_hash H)) rfl hlen12 hpos hsame2 hroot
    rw [hl1, hl2] at hmapeq
    simp only [List.map_append, List.map_cons] at hmapeq
    obtain ⟨-, htail⟩ := List.append_inj hmapeq (by simp)
    simp only [List.cons.injEq] at htail
    exact hhash htail.1

/-- Witness for `merkle_root_properties`, instantiated with the injective
length-uniform oracle `id` and two distinct transactions with equal-length
serializations. -/
theorem merkle_root_properties_witness :
    get_merkle_root id [] = zeros64
  ∧ get_merkle_root id [cexTxA] = Transaction.calculate_hash id cexTxA
  ∧ get_merkle_root id [cexTxA, cexTxB] ≠
      get_merkle_root id [cexTxB, cexTxA] := by
  have h := merkle_root_properties id (fun x y hxy => hxy)
    (fun s1 s2 hs => hs)
  refine ⟨h.2.1, h.2.2.1 cexTxA, ?_⟩
  have hswap := h.2.2.2.2 [] [] [] cexTxA cexTxB (by decide) (by decide)
    (by decide)
  simpa using hswap

end SampleChain
